import Mathlib

/-!
Verification of the cost-center assignment reconciliation engine.

The Go sources are shallowly embedded: Go maps are modelled as association
lists whose list order stands in for the (unspecified) map iteration order,
remote HTTP endpoints are modelled as environment records of pure functions,
and every remote call made by an operation is recorded in an explicit trace
so that statements about which calls happen (and which never happen) can be
proved.  Machine times are modelled as integer nanoseconds.
-/

namespace CostCenter

/-- Association-list lookup, modelling a read `m[k]` of a Go map. -/
def assocLookup {α : Type} : List (String × α) → String → Option α
  | [], _ => none
  | p :: rest, k => if p.1 = k then some p.2 else assocLookup rest k

/-- Association-list update, modelling a write `m[k] = v` of a Go map:
the binding for `k` is replaced in place, or appended when absent. -/
def assocSet {α : Type} : List (String × α) → String → α → List (String × α)
  | [], k, v => [(k, v)]
  | p :: rest, k, v =>
    if p.1 = k then (k, v) :: rest else p :: assocSet rest k v

/-- Set-style insertion into a list of distinct strings, modelling
`set[x] = true` on a Go `map[string]bool` used as a set. -/
def setInsert (s : List String) (x : String) : List String :=
  if x ∈ s then s else s ++ [x]

/-- Insertion sort used to model `sort.Strings`. -/
def insertSorted (x : String) : List String → List String
  | [] => [x]
  | y :: ys => if x ≤ y then x :: y :: ys else y :: insertSorted x ys

/-- Sorting a list of strings, modelling `sort.Strings`. -/
def sortStrings (l : List String) : List String := l.foldr insertSorted []

/-- A GitHub team as fetched from the remote service (`github.Team`). -/
structure Team where
  slug : String
  name : String
deriving DecidableEq, Repr

/-- The cost center assignment for a user found via a team
(`teams.UserAssignment`); only the final last-team-wins assignment is kept. -/
structure UserAssignment where
  username : String
  costCenter : String
  org : String
  teamSlug : String
deriving DecidableEq, Repr

/-- The configuration copied into `teams.Manager` by `NewManager`. -/
structure TeamsConfig where
  scope : String
  mode : String
  enterprise : String
  orgs : List String
  mappings : List (String × String)
  autoCreate : Bool
  removeUsers : Bool

/-- The team cache key: bare slug for enterprise scope, `org/slug` otherwise
(as computed inline in `costCenterForTeam` and `BuildTeamAssignments`). -/
def teamKey (cfg : TeamsConfig) (orgOrEnterprise slug : String) : String :=
  if cfg.scope = "enterprise" then slug else orgOrEnterprise ++ "/" ++ slug

/-- Embeds `Manager.costCenterForTeam`: manual mode looks up the configured
mapping, auto mode derives a deterministic name, any other mode fails.  The
per-run memoization cache is omitted because the function is pure. -/
def costCenterForTeam (cfg : TeamsConfig) (orgOrEnterprise : String) (team : Team) :
    Option String :=
  if cfg.mode = "manual" then
    assocLookup cfg.mappings (teamKey cfg orgOrEnterprise team.slug)
  else if cfg.mode = "auto" then
    if cfg.scope = "enterprise" then
      some ("[enterprise team] " ++ team.name)
    else
      some ("[org team] " ++ orgOrEnterprise ++ "/" ++ team.name)
  else none

/-- The remote data consumed by `BuildTeamAssignments`: the result of
`fetchAllTeams` (`none` models an aborting fetch error) and, per source and
team slug, the member logins returned by `fetchTeamMembers` (`none` models a
fetch error, which aborts the build). -/
structure FetchEnv where
  teams : Option (List (String × List Team))
  members : String → String → Option (List String)

/-- The assignments recorded while processing one team: one per member with
a non-empty login, in member order (the body of the inner loop of
`BuildTeamAssignments`). -/
def groupEvents (cfg : TeamsConfig) (src : String) (t : Team) (raw : List String) :
    List UserAssignment :=
  match costCenterForTeam cfg src t with
  | none => []
  | some cc =>
    (raw.filter (fun u => ¬ u = "")).map (fun u => ⟨u, cc, src, t.slug⟩)

/-- Folds a list of recorded assignments into the `userFinal` map, each write
overwriting the subject's previous assignment (last-team-wins). -/
def foldInsert (init : List (String × UserAssignment)) (l : List UserAssignment) :
    List (String × UserAssignment) :=
  l.foldl (fun st a => assocSet st a.username a) init

/-- Embeds the team loop of `BuildTeamAssignments` for one source: skip teams
with no cost-center mapping, abort on a member-fetch error, record each
member's assignment (overwriting previous ones). -/
def processTeams (cfg : TeamsConfig) (env : FetchEnv) (src : String) :
    List Team → List (String × UserAssignment) → Option (List (String × UserAssignment))
  | [], st => some st
  | t :: ts, st =>
    match costCenterForTeam cfg src t with
    | none => processTeams cfg env src ts st
    | some _ =>
      match env.members src t.slug with
      | none => none
      | some raw => processTeams cfg env src ts (foldInsert st (groupEvents cfg src t raw))

/-- Embeds the outer source loop of `BuildTeamAssignments`. -/
def processAll (cfg : TeamsConfig) (env : FetchEnv) :
    List (String × List Team) → List (String × UserAssignment) →
    Option (List (String × UserAssignment))
  | [], st => some st
  | (src, ts) :: rest, st =>
    match processTeams cfg env src ts st with
    | none => none
    | some st' => processAll cfg env rest st'

/-- The final per-user assignment map built by `BuildTeamAssignments`. -/
def buildUserFinal (cfg : TeamsConfig) (env : FetchEnv) :
    Option (List (String × UserAssignment)) :=
  match env.teams with
  | none => none
  | some allTeams => processAll cfg env allTeams []

/-- Grouping of the final assignments by cost-center name, embedding the
conversion loop at the end of `BuildTeamAssignments`. -/
def groupByCostCenter (l : List UserAssignment) : List (String × List UserAssignment) :=
  ((l.map (fun a => a.costCenter)).dedup).map
    (fun cc => (cc, l.filter (fun a => a.costCenter = cc)))

/-- Embeds `Manager.BuildTeamAssignments`: `none` models a returned error. -/
def buildTeamAssignments (cfg : TeamsConfig) (env : FetchEnv) :
    Option (List (String × List UserAssignment)) :=
  match buildUserFinal cfg env with
  | none => none
  | some final => some (groupByCostCenter (final.map Prod.snd))

/-- The full sequence of assignment-recording events of one source's team
loop, in processing order (specification device for last-team-wins). -/
def teamEvents (cfg : TeamsConfig) (env : FetchEnv) (src : String) :
    List Team → Option (List UserAssignment)
  | [] => some []
  | t :: ts =>
    match costCenterForTeam cfg src t with
    | none => teamEvents cfg env src ts
    | some _ =>
      match env.members src t.slug with
      | none => none
      | some raw => (teamEvents cfg env src ts).map (fun evs => groupEvents cfg src t raw ++ evs)

/-- The full sequence of assignment-recording events of a run, in processing
order across all sources. -/
def allEventsAux (cfg : TeamsConfig) (env : FetchEnv) :
    List (String × List Team) → Option (List UserAssignment)
  | [] => some []
  | (src, ts) :: rest =>
    match teamEvents cfg env src ts with
    | none => none
    | some evs =>
      match allEventsAux cfg env rest with
      | none => none
      | some evs' => some (evs ++ evs')

/-- All assignment-recording events of a run of `BuildTeamAssignments`. -/
def allEvents (cfg : TeamsConfig) (env : FetchEnv) : Option (List UserAssignment) :=
  match env.teams with
  | none => none
  | some allTeams => allEventsAux cfg env allTeams

/-- The last assignment recorded for a subject during a run; last-team-wins
means the final map agrees with this. -/
def lastEventFor (evts : List UserAssignment) (u : String) : Option UserAssignment :=
  (evts.filter (fun e => e.username = u)).getLast?

/-- A remote API call issued by the reconciliation engine, recorded in
traces so that theorems can talk about which calls happen. -/
inductive RemoteCall where
  | getActiveCostCenters
  | createCostCenter (name : String)
  | getCostCenterMembers (ccID : String)
  | checkMembership (username : String)
  | addUsers (ccID : String) (users : List String)
  | removeUsersCall (ccID : String) (users : List String)
  | createBudget (ccID : String) (product : String)
deriving DecidableEq, Repr

/-- Whether a remote call mutates remote state. -/
def RemoteCall.isMutating : RemoteCall → Bool
  | .createCostCenter _ => true
  | .addUsers _ _ => true
  | .removeUsersCall _ _ => true
  | .createBudget _ _ => true
  | _ => false

/-- The outcome of the POST in `Client.CreateCostCenter`: success with the
new identifier; a 409 conflict whose body yields the existing identifier via
the `uuidFromConflictRe` pattern; a 409 conflict whose body does not; or any
other error. -/
inductive CreateOutcome where
  | success (id : String)
  | conflictExtract (id : String)
  | conflictNoExtract
  | failure
deriving DecidableEq, Repr

/-- The remote responses consumed by `EnsureCostCentersExist`:
the preload `GetAllActiveCostCenters` listing (`none` models an error,
degraded to an empty preload), the initial contents of the file-backed cost
center cache (valid entries only), the per-name `CreateCostCenter` POST
outcome, and the re-listing used by `findCostCenterByName` after a 409
without an extractable identifier. -/
structure ProvisionEnv where
  preload : Option (List (String × String))
  cache0 : List (String × String)
  create : String → CreateOutcome
  relist : Option (List (String × String))

/-- The mutable client-side state threaded through provisioning: the
preloaded active-cost-center map (updated by `CreateCostCenterWithPreload`)
and the file-backed name→identifier cache (updated on creation, extraction
and listing). -/
structure ClientState where
  activeMap : List (String × String)
  cache : List (String × String)

/-- Embeds `Client.CreateCostCenter`: cache check, POST, 409 handling with
identifier extraction and the list-and-match-by-name fallback.  `none`
models a returned error. -/
def createCostCenter (env : ProvisionEnv) (st : ClientState) (name : String) :
    Option String × ClientState × List RemoteCall :=
  match assocLookup st.cache name with
  | some id => (some id, st, [])
  | none =>
    match env.create name with
    | .success id =>
      (some id, ⟨st.activeMap, assocSet st.cache name id⟩, [.createCostCenter name])
    | .conflictExtract id =>
      (some id, ⟨st.activeMap, assocSet st.cache name id⟩, [.createCostCenter name])
    | .conflictNoExtract =>
      match env.relist with
      | none => (none, st, [.createCostCenter name, .getActiveCostCenters])
      | some listing =>
        let cache' := listing.foldl (fun c p => assocSet c p.1 p.2) st.cache
        (assocLookup listing name, ⟨st.activeMap, cache'⟩,
          [.createCostCenter name, .getActiveCostCenters])
    | .failure => (none, st, [.createCostCenter name])

/-- Embeds `Client.CreateCostCenterWithPreload`: preload-map check, cache
check, then creation; the preload map is updated with the resolved id. -/
def createCostCenterWithPreload (env : ProvisionEnv) (st : ClientState) (name : String) :
    Option String × ClientState × List RemoteCall :=
  match assocLookup st.activeMap name with
  | some id => (some id, st, [])
  | none =>
    match assocLookup st.cache name with
    | some id => (some id, ⟨assocSet st.activeMap name id, st.cache⟩, [])
    | none =>
      match createCostCenter env st name with
      | (some id, st', calls) => (some id, ⟨assocSet st'.activeMap name id, st'.cache⟩, calls)
      | (none, st', calls) => (none, st', calls)

/-- The value returned by `EnsureCostCentersExist`: the resolved
name→identifier map, the set of identifiers marked newly created
(`none` models the `nil` map returned when auto-create is disabled),
and the trace of remote calls made.  The Go function returns a `nil`
error on every path. -/
structure EnsureResult where
  ccMap : List (String × String)
  newlyCreated : Option (List String)
  calls : List RemoteCall
deriving DecidableEq, Repr

/-- The per-name resolution loop of `EnsureCostCentersExist`: a preload hit
records the id; otherwise `CreateCostCenterWithPreload` is called, a
success marks the resolved id newly created, and a failure falls back to
using the name as its own identifier. -/
def ensureLoop (env : ProvisionEnv) :
    List String → ClientState → List (String × String) → List String → List RemoteCall →
    List (String × String) × List String × List RemoteCall
  | [], _, ccMap, nc, calls => (ccMap, nc, calls)
  | name :: rest, st, ccMap, nc, calls =>
    match assocLookup st.activeMap name with
    | some id => ensureLoop env rest st (assocSet ccMap name id) nc calls
    | none =>
      match createCostCenterWithPreload env st name with
      | (some id, st', cs) =>
        ensureLoop env rest st' (assocSet ccMap name id) (setInsert nc id) (calls ++ cs)
      | (none, st', cs) =>
        ensureLoop env rest st' (assocSet ccMap name name) nc (calls ++ cs)

/-- Embeds `Manager.EnsureCostCentersExist`.  With auto-create disabled it
returns the identity map, a `nil` newly-created set and makes no remote
call; otherwise it preloads the active cost centers (an error degrades to
an empty preload; the listing also populates the file cache) and resolves
each name in turn. -/
def ensureCostCentersExist (cfg : TeamsConfig) (env : ProvisionEnv)
    (ccNames : List String) : EnsureResult :=
  if cfg.autoCreate = false then
    ⟨ccNames.map (fun n => (n, n)), none, []⟩
  else
    let active := env.preload.getD []
    let cache1 :=
      match env.preload with
      | none => env.cache0
      | some listing => listing.foldl (fun c p => assocSet c p.1 p.2) env.cache0
    let r := ensureLoop env ccNames ⟨active, cache1⟩ [] [] [.getActiveCostCenters]
    ⟨r.1, some r.2.1, r.2.2⟩

/-- A lightweight cost center reference within a membership
(`github.CostCenterRef`). -/
structure CostCenterRef where
  id : String
  name : String
deriving DecidableEq, Repr

/-- The outcome of the memberships GET issued by
`CheckUserCostCenterMembership`: a call-layer error, or the (possibly
empty) list of memberships decoded from the response. -/
inductive MembershipOutcome where
  | callFailed
  | ok (refs : List CostCenterRef)
deriving DecidableEq, Repr

/-- The outcome of the budget POST issued by `CreateProductBudget`: success
(with the created flag), the distinguished budgets-API-unavailable error,
or any other error. -/
inductive BudgetOutcome where
  | ok (created : Bool)
  | unavailable
  | failed
deriving DecidableEq, Repr

/-- The remote responses consumed by the reconciler's apply phase: current
cost-center membership per id (`none` models an error), per-user membership
lookups, and the success of the add/remove/budget mutations. -/
structure ClientEnv where
  ccMembers : String → Option (List String)
  membership : String → MembershipOutcome
  addOutcome : String → List String → Bool
  removeOutcome : String → List String → Bool
  budget : String → String → BudgetOutcome

/-- Embeds `Client.CheckUserCostCenterMembership`: every lookup failure is
converted to the `(nil, nil)` result, and an empty membership list also
yields `(nil, nil)`; the second component models the returned `error`. -/
def checkUserCostCenterMembership (env : ClientEnv) (username : String) :
    (Option CostCenterRef × Option String) × List RemoteCall :=
  match env.membership username with
  | .callFailed => ((none, none), [.checkMembership username])
  | .ok [] => ((none, none), [.checkMembership username])
  | .ok (r :: _) => ((some r, none), [.checkMembership username])

/-- The triage loop of `AddUsersToCostCenter`: users already in the target
are marked successful, users found in another cost center are skipped with
a `false` result (when `ignoreCurrentCC` is unset), the rest go to `toAdd`.
Returns (results, toAdd, calls). -/
def addPartition (env : ClientEnv) (ignoreCurrentCC : Bool) (memberSet : List String) :
    List String → List (String × Bool) × List String × List RemoteCall
  | [] => ([], [], [])
  | u :: rest =>
    let r := addPartition env ignoreCurrentCC memberSet rest
    if u ∈ memberSet then ((u, true) :: r.1, r.2.1, r.2.2)
    else if ignoreCurrentCC = false then
      match (checkUserCostCenterMembership env u).1.1 with
      | some _ => ((u, false) :: r.1, r.2.1, .checkMembership u :: r.2.2)
      | none => (r.1, u :: r.2.1, .checkMembership u :: r.2.2)
    else (r.1, u :: r.2.1, r.2.2)

/-- Chunking into batches of 50, embedding the batch loop bounds of
`AddUsersToCostCenter`. -/
def chunk50 (xs : List String) : List (List String) :=
  if h : xs = [] then []
  else
    have : xs.length - 50 < xs.length := by
      have : 0 < xs.length := List.length_pos.mpr h
      omega
    xs.take 50 :: chunk50 (xs.drop 50)
termination_by xs.length
decreasing_by simpa using this

/-- The batch POST loop of `AddUsersToCostCenter`: a failed batch marks all
its users failed without blocking later batches. -/
def runBatches (env : ClientEnv) (ccID : String) :
    List (List String) → List (String × Bool) × List RemoteCall
  | [] => ([], [])
  | b :: bs =>
    let r := runBatches env ccID bs
    (b.map (fun u => (u, env.addOutcome ccID b)) ++ r.1, .addUsers ccID b :: r.2)

/-- Embeds `Client.AddUsersToCostCenter`; `none` models the error returned
when the current-members fetch fails. -/
def addUsersToCostCenter (env : ClientEnv) (ccID : String) (usernames : List String)
    (ignoreCurrentCC : Bool) : Option (List (String × Bool)) × List RemoteCall :=
  if usernames.isEmpty then (some [], [])
  else
    match env.ccMembers ccID with
    | none => (none, [.getCostCenterMembers ccID])
    | some current =>
      let p := addPartition env ignoreCurrentCC current usernames
      if p.2.1.isEmpty then (some p.1, .getCostCenterMembers ccID :: p.2.2)
      else
        let b := runBatches env ccID (chunk50 p.2.1)
        (some (p.1 ++ b.1), .getCostCenterMembers ccID :: (p.2.2 ++ b.2))

/-- Embeds `Client.BulkUpdateCostCenterAssignments`: per cost center, empty
user lists are skipped and a failed `AddUsersToCostCenter` degrades to an
all-false result map; the function never returns an error. -/
def bulkUpdateCostCenterAssignments (env : ClientEnv)
    (assignments : List (String × List String)) (ignoreCurrentCC : Bool) :
    List (String × List (String × Bool)) × List RemoteCall :=
  match assignments with
  | [] => ([], [])
  | (ccID, usernames) :: rest =>
    let r := bulkUpdateCostCenterAssignments env rest ignoreCurrentCC
    if usernames.isEmpty then r
    else
      match addUsersToCostCenter env ccID usernames ignoreCurrentCC with
      | (some ccResults, calls) => ((ccID, ccResults) :: r.1, calls ++ r.2)
      | (none, calls) => ((ccID, usernames.map (fun u => (u, false))) :: r.1, calls ++ r.2)

/-- Embeds `Client.RemoveUsersFromCostCenter`: one DELETE per call; on
failure every user is reported `false` (and an error is returned, which
`handleUserRemoval` only logs). -/
def removeUsersFromCostCenter (env : ClientEnv) (ccID : String) (usernames : List String) :
    List (String × Bool) × List RemoteCall :=
  if usernames.isEmpty then ([], [])
  else
    (usernames.map (fun u => (u, env.removeOutcome ccID usernames)),
      [.removeUsersCall ccID usernames])

/-- The per-cost-center body of `handleUserRemoval`: fetch current members
(an error skips the center), compute the stale set `current − expected`,
and — only when full sync is enabled and the stale set is non-empty —
remove it in one sorted call. -/
def removalForCC (cfg : TeamsConfig) (env : ClientEnv) (ccID : String)
    (expectedUsers : List String) :
    List (String × List (String × Bool)) × List RemoteCall :=
  match env.ccMembers ccID with
  | none => ([], [.getCostCenterMembers ccID])
  | some current =>
    let stale := current.filter (fun m => ¬ m ∈ expectedUsers)
    if stale.isEmpty then ([], [.getCostCenterMembers ccID])
    else if cfg.removeUsers then
      let r := removeUsersFromCostCenter env ccID (sortStrings stale)
      ([(ccID, r.1)], .getCostCenterMembers ccID :: r.2)
    else ([], [.getCostCenterMembers ccID])

/-- The cost-center loop of `handleUserRemoval` over the centers that
survived the newly-created filter. -/
def removalLoop (cfg : TeamsConfig) (env : ClientEnv) :
    List (String × List String) → List (String × List (String × Bool)) × List RemoteCall
  | [] => ([], [])
  | (ccID, expectedUsers) :: rest =>
    let one := removalForCC cfg env ccID expectedUsers
    let r := removalLoop cfg env rest
    (one.1 ++ r.1, one.2 ++ r.2)

/-- Embeds `Manager.handleUserRemoval`: newly-created cost centers are
filtered out first, then each remaining center is checked (and optionally
cleaned).  The `ccNameToID` reverse map of the source is used only for log
display and is omitted. -/
def handleUserRemoval (cfg : TeamsConfig) (env : ClientEnv)
    (expectedAssignments : List (String × List String)) (newlyCreated : List String) :
    List (String × List (String × Bool)) × List RemoteCall :=
  removalLoop cfg env (expectedAssignments.filter (fun p => ¬ p.1 ∈ newlyCreated))

/-- A product budget configuration entry (`config.ProductBudget`). -/
structure ProductBudget where
  amount : Int
  enabled : Bool
deriving DecidableEq, Repr

/-- The per-cost-center product loop of `createBudgetsForNewCCs`: disabled
products are skipped; a budgets-API-unavailable error stops the loop and
reports the disabling to the caller (second component). -/
def budgetInner (benv : String → String → BudgetOutcome) (ccID : String) :
    List (String × ProductBudget) → List RemoteCall × Bool
  | [] => ([], false)
  | (product, pc) :: rest =>
    if pc.enabled = false then budgetInner benv ccID rest
    else
      match benv ccID product with
      | .unavailable => ([.createBudget ccID product], true)
      | _ =>
        let r := budgetInner benv ccID rest
        (.createBudget ccID product :: r.1, r.2)

/-- The cost-center loop of `createBudgetsForNewCCs`: once the budgets API
is detected unavailable, no further attempts are made this run. -/
def budgetOuter (benv : String → String → BudgetOutcome)
    (products : List (String × ProductBudget)) : List String → List RemoteCall
  | [] => []
  | cc :: rest =>
    let r := budgetInner benv cc products
    if r.2 then r.1 else r.1 ++ budgetOuter benv products rest

/-- Embeds `Manager.createBudgetsForNewCCs` (trace only; the function
returns nothing).  The `ccMap` reverse lookup is used only for display. -/
def createBudgetsForNewCCs (benv : String → String → BudgetOutcome)
    (products : List (String × ProductBudget)) (newlyCreated : List String) :
    List RemoteCall :=
  if products.isEmpty then [] else budgetOuter benv products newlyCreated

/-- The username dedup of `SyncTeamAssignments`' id-conversion loop,
keeping each first occurrence (the `seen` map). -/
def dedupKeepFirst : List String → List String → List String
  | [], _ => []
  | u :: rest, seen =>
    if u ∈ seen then dedupKeepFirst rest seen
    else u :: dedupKeepFirst rest (u :: seen)

/-- Appends users to a cost-center-id bucket of the `idBased` map. -/
def appendBucket (m : List (String × List String)) (ccID : String)
    (users : List String) : List (String × List String) :=
  match assocLookup m ccID with
  | none => assocSet m ccID users
  | some prev => assocSet m ccID (prev ++ users)

/-- Embeds the id-conversion and dedup loop of `SyncTeamAssignments`:
each cost-center name is mapped through `ccMap` (a missing entry yields the
empty id, the Go zero value) and its users are deduplicated per name. -/
def dedupAssignments (assignments : List (String × List UserAssignment))
    (ccMap : List (String × String)) : List (String × List String) :=
  assignments.foldl
    (fun acc p =>
      appendBucket acc ((assocLookup ccMap p.1).getD "")
        (dedupKeepFirst (p.2.map (fun a => a.username)) []))
    []

/-- Merging of removal results into addition results, keyed by cost-center
id; a removal write overwrites the addition status for that id+user pair. -/
def mergeResults (results removed : List (String × List (String × Bool))) :
    List (String × List (String × Bool)) :=
  removed.foldl
    (fun acc p =>
      p.2.foldl
        (fun acc q =>
          assocSet acc p.1 (assocSet ((assocLookup acc p.1).getD []) q.1 q.2))
        acc)
    results

/-- The value returned by `SyncTeamAssignments`: an error, the `nil` result
map (no assignments, or plan mode), or the applied per-cost-center result
map. -/
inductive SyncOutcome where
  | failed
  | nilResult
  | applied (results : List (String × List (String × Bool)))
deriving DecidableEq, Repr

/-- Embeds `Manager.SyncTeamAssignments`: build, sort the cost-center
names, in plan mode stop before any provisioning or mutation and return the
`nil` map; in apply mode provision, create budgets for newly-created
centers when enabled, apply additions in bulk, then detect (and with full
sync remove) stale users, merging removal results in. -/
def syncTeamAssignments (cfg : TeamsConfig) (createBudgetsFlag : Bool)
    (products : List (String × ProductBudget)) (fenv : FetchEnv) (penv : ProvisionEnv)
    (cenv : ClientEnv) (mode : String) (ignoreCurrentCC : Bool) :
    SyncOutcome × List RemoteCall :=
  match buildTeamAssignments cfg fenv with
  | none => (.failed, [])
  | some assignments =>
    if assignments.isEmpty then (.nilResult, [])
    else
      let ccNames := sortStrings (assignments.map Prod.fst)
      if mode = "plan" then (.nilResult, [])
      else
        let er := ensureCostCentersExist cfg penv ccNames
        let newlyCreated := er.newlyCreated.getD []
        let bcalls :=
          if createBudgetsFlag ∧ ¬ newlyCreated.isEmpty then
            createBudgetsForNewCCs cenv.budget products newlyCreated
          else []
        let idBased := dedupAssignments assignments er.ccMap
        let applied := bulkUpdateCostCenterAssignments cenv idBased ignoreCurrentCC
        let removal := handleUserRemoval cfg cenv idBased newlyCreated
        let merged := if cfg.removeUsers then mergeResults applied.1 removal.1 else applied.1
        (.applied merged, er.calls ++ bcalls ++ applied.2 ++ removal.2)

/-- The retry budget `maxRetries` of the call layer. -/
def maxRetries : Nat := 3

/-- One second in nanoseconds, the backoff base `retryBackoffBase`. -/
def secondNs : Int := 1000000000

/-- The exponential backoff `base(1s) * 2^attempt` of `Client.backoff`. -/
def backoffNs (attempt : Nat) : Int := secondNs * 2 ^ attempt

/-- The retryable status set `retryableStatusCodes`. -/
def retryableStatus (code : Nat) : Bool :=
  code = 429 ∨ code = 500 ∨ code = 502 ∨ code = 503 ∨ code = 504

/-- Embeds `Client.rateLimitWait`.  The header is modelled post-parse: `none`
covers both a missing `X-RateLimit-Reset` header and an unparseable one
(both fall back to 60s); `some reset` is the parsed Unix-seconds value, and
the wait is `reset + 1s` safety margin minus the current time, floored at
one second. -/
def rateLimitWaitNs (nowNs : Int) (resetHeader : Option Int) : Int :=
  match resetHeader with
  | none => 60 * secondNs
  | some reset =>
    let wait := reset * secondNs - nowNs + secondNs
    if wait ≤ 0 then secondNs else wait

/-- Embeds `readBody`: the response body capped at 4096 bytes (bytes are
modelled as characters). -/
def take4096 (s : String) : String := String.mk (s.data.take 4096)

/-- The outcome of a single `Client.do` execution: a network-level error
(with its `isTransient` classification) or an HTTP response with status,
parsed rate-limit reset header and body. -/
inductive HTTPOutcome where
  | netErr (transientErr : Bool)
  | response (status : Nat) (resetHeader : Option Int) (body : String)
deriving DecidableEq, Repr

/-- What a `doJSON` run produced: success (2xx), a terminal network error,
a terminal `APIError`, or — with the given iteration fuel exhausted — a loop
still running (reachable only through an unbounded run of 429 responses,
which the Go loop services forever). -/
inductive DoResult where
  | success
  | netFailure
  | apiError (status : Nat) (body : String)
  | stillLooping
deriving DecidableEq, Repr

/-- Prepends a sleep to the wait trace of a call-layer run. -/
def withWait (w : Int) (p : DoResult × List Int) : DoResult × List Int :=
  (p.1, w :: p.2)

/-- Embeds the retry loop of `Client.doJSON` over a stream of per-request
outcomes `resp` (the `idx`-th executed request sees `resp idx`).  A
transient network error or a retryable 5xx consumes one attempt and sleeps
an exponential backoff; a 429 sleeps the rate-limit wait and retries
without touching the attempt counter; any other non-2xx is terminal with
the capped body.  `fuel` bounds the number of loop iterations modelled; the
Go loop condition `attempt < maxRetries` is never false at loop entry
because `attempt` is only incremented under `attempt < maxRetries-1`, so
the post-loop failure return is unreachable and is not modelled.  The
second component is the trace of sleeps performed. -/
def doJSONAux (nowNs : Int) (resp : Nat → HTTPOutcome) :
    Nat → Nat → Nat → DoResult × List Int
  | 0, _, _ => (.stillLooping, [])
  | fuel + 1, attempt, idx =>
    match resp idx with
    | .netErr transientErr =>
      if transientErr = true ∧ attempt < maxRetries - 1 then
        withWait (backoffNs attempt) (doJSONAux nowNs resp fuel (attempt + 1) (idx + 1))
      else (.netFailure, [])
    | .response status hdr body =>
      if 200 ≤ status ∧ status < 300 then (.success, [])
      else if status = 429 then
        withWait (rateLimitWaitNs nowNs hdr) (doJSONAux nowNs resp fuel attempt (idx + 1))
      else if retryableStatus status ∧ attempt < maxRetries - 1 then
        withWait (backoffNs attempt) (doJSONAux nowNs resp fuel (attempt + 1) (idx + 1))
      else (.apiError status (take4096 body), [])

/-- A `doJSON` run from the initial state (`attempt = 0`, first request). -/
def doJSON (nowNs : Int) (resp : Nat → HTTPOutcome) (fuel : Nat) : DoResult × List Int :=
  doJSONAux nowNs resp fuel 0 0

/-- A cached cost-center lookup (`cache.Entry`); times in nanoseconds. -/
structure Entry where
  id : String
  name : String
  cachedAt : Int
  ttlHours : Int
deriving DecidableEq, Repr

/-- Embeds `Entry.IsExpired`: the entry has exceeded its TTL. -/
def Entry.isExpired (e : Entry) (nowNs : Int) : Bool :=
  decide (nowNs - e.cachedAt > e.ttlHours * 3600 * secondNs)

/-- The zero `Entry` returned by `Cache.Get` on a miss. -/
def zeroEntry : Entry := ⟨"", "", 0, 0⟩

/-- The in-memory cache state (`cache.Cache`): the cache-level TTL applied
by `Set`, and the entry table. -/
structure CacheState where
  ttlHours : Int
  entries : List (String × Entry)
deriving DecidableEq, Repr

/-- Embeds `Cache.Get`: returns the entry and `true` iff a non-expired
entry exists; the state is returned to express that reads never mutate the
entry table. -/
def cacheGet (st : CacheState) (key : String) (nowNs : Int) :
    (Entry × Bool) × CacheState :=
  match assocLookup st.entries key with
  | none => ((zeroEntry, false), st)
  | some e => if e.isExpired nowNs then ((zeroEntry, false), st) else ((e, true), st)

/-- Embeds `Cache.Set`: stores the entry stamped with the current time and
the cache-level TTL.  The flush to disk can fail, but that error never
touches the in-memory table, which is all this model carries. -/
def cacheSet (st : CacheState) (key id name : String) (nowNs : Int) : CacheState :=
  ⟨st.ttlHours, assocSet st.entries key ⟨id, name, nowNs, st.ttlHours⟩⟩

/-- The teams-mode summary statistics (`teams.Summary`). -/
structure Summary where
  mode : String
  scope : String
  organizations : List String
  totalTeams : Nat
  totalCCs : Nat
  uniqueUsers : Nat
  costCenters : List (String × Nat)
deriving DecidableEq, Repr

/-- Embeds `Manager.GenerateSummary`: build the assignments, count the
teams fetched into the per-run cache, the distinct assigned users, and the
per-cost-center user counts. -/
def generateSummary (cfg : TeamsConfig) (env : FetchEnv) : Option Summary :=
  match buildTeamAssignments cfg env with
  | none => none
  | some assignments =>
    let totalTeams :=
      match env.teams with
      | none => 0
      | some ts => (ts.map (fun p => p.2.length)).sum
    some
      { mode := cfg.mode
        scope := cfg.scope
        organizations := cfg.orgs
        totalTeams := totalTeams
        totalCCs := assignments.length
        uniqueUsers := (((assignments.flatMap Prod.snd).map (fun a => a.username)).dedup).length
        costCenters := assignments.map (fun p => (p.1, p.2.length)) }

/-- A two-team organization fixture with one multi-team user, matching the
spec's example scenario (`team-a:[alice,bob]`, `team-b:[bob,carol]`). -/
def fixtureCfg : TeamsConfig :=
  ⟨"organization", "auto", "", ["org1"], [], true, true⟩

/-- The fetch environment of the two-team fixture. -/
def fixtureEnv : FetchEnv :=
  ⟨some [("org1", [⟨"team-a", "team-a"⟩, ⟨"team-b", "team-b"⟩])],
   fun _ slug =>
     if slug = "team-a" then some ["alice", "bob"]
     else if slug = "team-b" then some ["bob", "carol"] else some []⟩

/-- The grouped assignments the fixture resolves to: `bob` is a member of
both teams and ends up in the team processed last. -/
def fixtureAsgs : List (String × List UserAssignment) :=
  [("[org team] org1/team-a",
    [⟨"alice", "[org team] org1/team-a", "org1", "team-a"⟩]),
   ("[org team] org1/team-b",
    [⟨"bob", "[org team] org1/team-b", "org1", "team-b"⟩,
     ⟨"carol", "[org team] org1/team-b", "org1", "team-b"⟩])]

/-- The assignment-recording events of the fixture, in processing order. -/
def fixtureEvts : List UserAssignment :=
  [⟨"alice", "[org team] org1/team-a", "org1", "team-a"⟩,
   ⟨"bob", "[org team] org1/team-a", "org1", "team-a"⟩,
   ⟨"bob", "[org team] org1/team-b", "org1", "team-b"⟩,
   ⟨"carol", "[org team] org1/team-b", "org1", "team-b"⟩]

/-- Whether a call is the member-removal DELETE for the given cost center. -/
def RemoteCall.isRemovalFor (ccID : String) : RemoteCall → Bool
  | .removeUsersCall c _ => c = ccID
  | _ => false

/-- Whether a call references the given cost-center identifier. -/
def RemoteCall.mentionsCC (ccID : String) : RemoteCall → Bool
  | .getCostCenterMembers c => c = ccID
  | .removeUsersCall c _ => c = ccID
  | .addUsers c _ => c = ccID
  | .createBudget c _ => c = ccID
  | _ => false

/-- A client environment whose cost centers hold `alice`, `bob` and `dave`
and whose per-user membership lookups always fail. -/
def applyEnvFixture : ClientEnv :=
  ⟨fun _ => some ["alice", "bob", "dave"],
   fun _ => .callFailed,
   fun _ _ => true, fun _ _ => true, fun _ _ => .ok true⟩

/-- A response stream that rate-limits twice and then succeeds. -/
def rateLimitRespFixture : Nat → HTTPOutcome :=
  fun i => if i < 2 then .response 429 none "slow" else .response 200 none ""

/-- A response stream that always fails with a 500. -/
def serverErrRespFixture : Nat → HTTPOutcome :=
  fun _ => .response 500 none "boom"

/-- A response stream that always fails with a 403. -/
def forbiddenRespFixture : Nat → HTTPOutcome :=
  fun _ => .response 403 none "nope"

-- ## Theorems

theorem assocLookup_assocSet {α : Type} (m : List (String × α)) (k k' : String) (v : α) :
    assocLookup (assocSet m k v) k' = if k = k' then some v else assocLookup m k' := by
  induction m with
  | nil =>
    simp only [assocSet, assocLookup]
  | cons p rest ih =>
    by_cases hpk : p.1 = k
    · simp only [assocSet, if_pos hpk, assocLookup]
      by_cases hkk : k = k'
      · simp [hkk]
      · simp only [if_neg hkk]
        rw [if_neg (by rw [hpk]; exact hkk)]
    · simp only [assocSet, if_neg hpk, assocLookup]
      by_cases hp' : p.1 = k'
      · have hkk : ¬ k = k' := fun h => hpk (by rw [hp', h])
        simp [hp', hkk]
      · simp [hp', ih]

theorem mem_keys_assocSet {α : Type} (m : List (String × α)) (k a : String) (v : α) :
    a ∈ (assocSet m k v).map Prod.fst ↔ a ∈ m.map Prod.fst ∨ a = k := by
  induction m with
  | nil => simp [assocSet]
  | cons p rest ih =>
    by_cases hpk : p.1 = k
    · simp only [assocSet, if_pos hpk, List.map_cons, List.mem_cons]
      constructor
      · rintro (h | h)
        · exact Or.inr h
        · exact Or.inl (Or.inr h)
      · rintro ((h | h) | h)
        · exact Or.inl (h.trans hpk)
        · exact Or.inr h
        · exact Or.inl h
    · simp only [assocSet, if_neg hpk, List.map_cons, List.mem_cons, ih]
      tauto

theorem keys_nodup_assocSet {α : Type} (m : List (String × α)) (k : String) (v : α)
    (h : (m.map Prod.fst).Nodup) : ((assocSet m k v).map Prod.fst).Nodup := by
  induction m with
  | nil => simp [assocSet]
  | cons p rest ih =>
    simp only [List.map_cons, List.nodup_cons] at h
    by_cases hpk : p.1 = k
    · simp only [assocSet, if_pos hpk, List.map_cons, List.nodup_cons]
      exact ⟨by rw [← hpk]; exact h.1, h.2⟩
    · simp only [assocSet, if_neg hpk, List.map_cons, List.nodup_cons]
      refine ⟨fun hmem => ?_, ih h.2⟩
      rcases (mem_keys_assocSet rest k p.1 v).mp hmem with hin | heq
      · exact h.1 hin
      · exact hpk heq

theorem forall_mem_assocSet {α : Type} (P : String × α → Prop) (m : List (String × α))
    (k : String) (v : α) (hm : ∀ q ∈ m, P q) (hv : P (k, v)) :
    ∀ q ∈ assocSet m k v, P q := by
  induction m with
  | nil => simpa [assocSet] using hv
  | cons p rest ih =>
    by_cases hpk : p.1 = k
    · simp only [assocSet, if_pos hpk]
      intro q hq
      rcases List.mem_cons.mp hq with h | h
      · exact h ▸ hv
      · exact hm q (List.mem_cons_of_mem _ h)
    · simp only [assocSet, if_neg hpk]
      intro q hq
      rcases List.mem_cons.mp hq with h | h
      · exact h ▸ hm p (List.mem_cons_self _ _)
      · exact ih (fun q hq => hm q (List.mem_cons_of_mem _ hq)) q h

theorem assocLookup_of_mem_keys_nodup {α : Type} (key : α → String) :
    ∀ (m : List (String × α)), (m.map Prod.fst).Nodup →
    (∀ p ∈ m, key p.2 = p.1) → ∀ a ∈ m.map Prod.snd, assocLookup m (key a) = some a := by
  intro m
  induction m with
  | nil => simp
  | cons p rest ih =>
    intro hnd hkey a ha
    simp only [List.map_cons, List.nodup_cons] at hnd
    rcases List.mem_cons.mp ha with h | h
    · subst h
      have hk : key p.2 = p.1 := hkey p (List.mem_cons_self _ _)
      simp [assocLookup, hk]
    · rcases List.mem_map.mp h with ⟨q, hq, hqa⟩
      have hka : key a = q.1 := by rw [← hqa]; exact hkey q (List.mem_cons_of_mem _ hq)
      have hne : ¬ p.1 = key a := by
        rw [hka]; intro hcontra
        exact hnd.1 (hcontra ▸ List.mem_map.mpr ⟨q, hq, rfl⟩)
      simp only [assocLookup, if_neg hne]
      exact ih hnd.2 (fun q hq => hkey q (List.mem_cons_of_mem _ hq)) a h

theorem mem_insertSorted (x a : String) (l : List String) :
    a ∈ insertSorted x l ↔ a = x ∨ a ∈ l := by
  induction l with
  | nil => simp [insertSorted]
  | cons y ys ih =>
    by_cases h : x ≤ y
    · simp [insertSorted, h]
    · simp only [insertSorted, if_neg h, List.mem_cons, ih]
      tauto

theorem mem_sortStrings (a : String) (l : List String) :
    a ∈ sortStrings l ↔ a ∈ l := by
  induction l with
  | nil => simp [sortStrings]
  | cons x xs ih =>
    simp only [sortStrings, List.foldr_cons] at ih ⊢
    rw [mem_insertSorted, ih, List.mem_cons]

theorem getLast?_cons_eq {α : Type} (a : α) (l : List α) :
    (a :: l).getLast? =
      match l.getLast? with
      | some b => some b
      | none => some a := by
  cases l with
  | nil => rfl
  | cons b t =>
    rw [List.getLast?_cons_cons]
    cases h : (b :: t).getLast? with
    | none => exact absurd (List.getLast?_eq_none_iff.mp h) (by simp)
    | some c => rfl

theorem foldInsert_cons (init : List (String × UserAssignment)) (a : UserAssignment)
    (l : List UserAssignment) :
    foldInsert init (a :: l) = foldInsert (assocSet init a.username a) l := rfl

theorem foldInsert_append (init : List (String × UserAssignment))
    (l l' : List UserAssignment) :
    foldInsert init (l ++ l') = foldInsert (foldInsert init l) l' := by
  simp [foldInsert, List.foldl_append]

theorem assocLookup_foldInsert (k : String) :
    ∀ (l : List UserAssignment) (init : List (String × UserAssignment)),
    assocLookup (foldInsert init l) k =
      match (l.filter (fun e => e.username = k)).getLast? with
      | some a => some a
      | none => assocLookup init k := by
  intro l
  induction l with
  | nil => intro init; simp [foldInsert]
  | cons a l ih =>
    intro init
    rw [foldInsert_cons, ih]
    by_cases h : a.username = k
    · rw [List.filter_cons_of_pos (by simpa using h), getLast?_cons_eq]
      cases hl : (l.filter (fun e => e.username = k)).getLast? with
      | some b => rfl
      | none =>
        simp only [assocLookup_assocSet, if_pos h]
    · rw [List.filter_cons_of_neg (by simpa using h)]
      cases hl : (l.filter (fun e => e.username = k)).getLast? with
      | some b => rfl
      | none =>
        simp only [assocLookup_assocSet, if_neg h]

theorem foldInsert_keys_nodup :
    ∀ (l : List UserAssignment) (init : List (String × UserAssignment)),
    ((init.map Prod.fst).Nodup) → (((foldInsert init l).map Prod.fst).Nodup) := by
  intro l
  induction l with
  | nil => intro init h; simpa [foldInsert] using h
  | cons a l ih =>
    intro init h
    rw [foldInsert_cons]
    exact ih _ (keys_nodup_assocSet _ _ _ h)

theorem foldInsert_username_eq_key :
    ∀ (l : List UserAssignment) (init : List (String × UserAssignment)),
    (∀ p ∈ init, p.2.username = p.1) → ∀ p ∈ foldInsert init l, p.2.username = p.1 := by
  intro l
  induction l with
  | nil => intro init h; simpa [foldInsert] using h
  | cons a l ih =>
    intro init h
    rw [foldInsert_cons]
    exact ih _ (forall_mem_assocSet (fun q : String × UserAssignment => q.2.username = q.1)
      _ _ _ h rfl)

theorem processTeams_eq (cfg : TeamsConfig) (env : FetchEnv) (src : String) :
    ∀ (ts : List Team) (st : List (String × UserAssignment)),
    processTeams cfg env src ts st =
      (teamEvents cfg env src ts).map (fun evs => foldInsert st evs) := by
  intro ts
  induction ts with
  | nil => intro st; rfl
  | cons t ts ih =>
    intro st
    cases hcc : costCenterForTeam cfg src t with
    | none => simp [processTeams, teamEvents, hcc, ih]
    | some cc =>
      cases hm : env.members src t.slug with
      | none => simp [processTeams, teamEvents, hcc, hm]
      | some raw =>
        cases hte : teamEvents cfg env src ts with
        | none => simp [processTeams, teamEvents, hcc, hm, hte, ih]
        | some evs =>
          simp [processTeams, teamEvents, hcc, hm, hte, ih, foldInsert_append]

theorem processAll_eq (cfg : TeamsConfig) (env : FetchEnv) :
    ∀ (l : List (String × List Team)) (st : List (String × UserAssignment)),
    processAll cfg env l st =
      (allEventsAux cfg env l).map (fun evs => foldInsert st evs) := by
  intro l
  induction l with
  | nil => intro st; rfl
  | cons p rest ih =>
    intro st
    obtain ⟨src, ts⟩ := p
    cases hte : teamEvents cfg env src ts with
    | none => simp [processAll, allEventsAux, processTeams_eq, hte]
    | some evs =>
      cases hae : allEventsAux cfg env rest with
      | none => simp [processAll, allEventsAux, processTeams_eq, hte, hae, ih]
      | some evs' =>
        simp [processAll, allEventsAux, processTeams_eq, hte, hae, ih, foldInsert_append]

theorem buildUserFinal_eq (cfg : TeamsConfig) (env : FetchEnv) :
    buildUserFinal cfg env = (allEvents cfg env).map (fun evts => foldInsert [] evts) := by
  simp only [buildUserFinal, allEvents]
  cases env.teams with
  | none => rfl
  | some allTeams => exact processAll_eq cfg env allTeams []

theorem flatMap_snd_keys (f : String → List UserAssignment) :
    ∀ keys : List String,
    (keys.map (fun cc => (cc, f cc))).flatMap Prod.snd = keys.flatMap f := by
  intro keys
  induction keys with
  | nil => rfl
  | cons c ks ih => simp only [List.map_cons, List.flatMap_cons, ih]

theorem flatMap_snd_groupBy (S : List UserAssignment) :
    (groupByCostCenter S).flatMap Prod.snd =
      ((S.map (fun a => a.costCenter)).dedup).flatMap
        (fun cc => S.filter (fun a => a.costCenter = cc)) :=
  flatMap_snd_keys _ _

theorem buckets_usernames_nodup (S : List UserAssignment)
    (hS : (S.map (fun a => a.username)).Nodup) :
    ∀ keys : List String, keys.Nodup →
    ((keys.flatMap (fun cc => S.filter (fun a => a.costCenter = cc))).map
      (fun a => a.username)).Nodup := by
  intro keys
  induction keys with
  | nil => simp
  | cons c ks ih =>
    intro hnd
    rw [List.nodup_cons] at hnd
    rw [List.flatMap_cons, List.map_append, List.nodup_append]
    refine ⟨?_, ih hnd.2, ?_⟩
    · exact hS.sublist (List.Sublist.map _ (List.filter_sublist S))
    · intro u hu1 hu2
      rcases List.mem_map.mp hu1 with ⟨a1, ha1, ha1u⟩
      rcases List.mem_map.mp hu2 with ⟨a2, ha2, ha2u⟩
      rcases List.mem_flatMap.mp ha2 with ⟨cc, hcc, ha2f⟩
      rw [List.mem_filter] at ha1 ha2f
      have heq : a1 = a2 :=
        List.inj_on_of_nodup_map hS ha1.1 ha2f.1 (ha1u.trans ha2u.symm)
      have hc1 : a1.costCenter = c := by simpa using ha1.2
      have hc2 : a2.costCenter = cc := by simpa using ha2f.2
      exact hnd.1 (by rw [← hc1, heq, hc2]; exact hcc)

theorem groupBy_usernames_nodup (S : List UserAssignment)
    (hS : (S.map (fun a => a.username)).Nodup) :
    (((groupByCostCenter S).flatMap Prod.snd).map (fun a => a.username)).Nodup := by
  rw [flatMap_snd_groupBy]
  exact buckets_usernames_nodup S hS _ (List.nodup_dedup _)

theorem mem_of_mem_groupBy (S : List UserAssignment) (a : UserAssignment)
    (h : a ∈ (groupByCostCenter S).flatMap Prod.snd) : a ∈ S := by
  rw [flatMap_snd_groupBy] at h
  rcases List.mem_flatMap.mp h with ⟨cc, _, hf⟩
  exact (List.mem_filter.mp hf).1

theorem length_flatMap' {α β : Type} (l : List α) (f : α → List β) :
    (l.flatMap f).length = (l.map (fun x => (f x).length)).sum := by
  induction l with
  | nil => rfl
  | cons x xs ih => simp [List.flatMap_cons, ih]

theorem buildUserFinal_facts (cfg : TeamsConfig) (env : FetchEnv)
    (final : List (String × UserAssignment))
    (hf : buildUserFinal cfg env = some final) :
    (∀ p ∈ final, p.2.username = p.1) ∧ ((final.map Prod.fst).Nodup) ∧
    ∃ evts, allEvents cfg env = some evts ∧ final = foldInsert [] evts := by
  have heq := buildUserFinal_eq cfg env
  rw [hf] at heq
  cases hae : allEvents cfg env with
  | none => rw [hae] at heq; exact absurd heq (by simp)
  | some evts =>
    rw [hae] at heq
    have hfe : final = foldInsert [] evts := by simpa using heq
    subst hfe
    exact ⟨foldInsert_username_eq_key evts [] (by simp),
      foldInsert_keys_nodup evts [] (by simp), evts, rfl, rfl⟩

theorem build_S_usernames_nodup (cfg : TeamsConfig) (env : FetchEnv)
    (final : List (String × UserAssignment))
    (hf : buildUserFinal cfg env = some final) :
    ((final.map Prod.snd).map (fun a => a.username)).Nodup := by
  obtain ⟨hinv, hknd, -⟩ := buildUserFinal_facts cfg env final hf
  rw [List.map_map]
  have hmc : final.map ((fun a : UserAssignment => a.username) ∘ Prod.snd) =
      final.map Prod.fst :=
    List.map_congr_left (fun p hp => hinv p hp)
  rw [hmc]
  exact hknd

theorem buildTeamAssignments_some_final (cfg : TeamsConfig) (env : FetchEnv)
    (asgs : List (String × List UserAssignment))
    (hb : buildTeamAssignments cfg env = some asgs) :
    ∃ final, buildUserFinal cfg env = some final ∧
      asgs = groupByCostCenter (final.map Prod.snd) := by
  unfold buildTeamAssignments at hb
  cases hf : buildUserFinal cfg env with
  | none => rw [hf] at hb; exact absurd hb (by simp)
  | some final =>
    rw [hf] at hb
    exact ⟨final, rfl, by injection hb with h; exact h.symm⟩

/-- Claim C1: for every input set of groups and memberships, the map
returned by `BuildTeamAssignments` contains at most one assignment per
subject across all cost-center keys (the usernames across all buckets are
pairwise distinct), and every assignment in the map equals the one recorded
for that subject by the group processed last — in particular, a subject that
is a member of N>1 processed groups gets exactly the last-processed group's
assignment (last-group-wins overwrite). -/
theorem buildTeamAssignments_unique_last_wins (cfg : TeamsConfig) (env : FetchEnv)
    (asgs : List (String × List UserAssignment)) (evts : List UserAssignment)
    (hb : buildTeamAssignments cfg env = some asgs)
    (he : allEvents cfg env = some evts) :
    (((asgs.flatMap Prod.snd).map (fun a => a.username)).Nodup)
    ∧ ∀ a ∈ asgs.flatMap Prod.snd, lastEventFor evts a.username = some a := by
  obtain ⟨final, hf, hasgs⟩ := buildTeamAssignments_some_final cfg env asgs hb
  obtain ⟨hinv, hknd, evts', hae', hfe⟩ := buildUserFinal_facts cfg env final hf
  have hevts : evts' = evts := by rw [hae'] at he; injection he
  rw [hevts] at hfe
  constructor
  · rw [hasgs]
    exact groupBy_usernames_nodup _ (build_S_usernames_nodup cfg env final hf)
  · intro a ha
    rw [hasgs] at ha
    have haS : a ∈ final.map Prod.snd := mem_of_mem_groupBy _ a ha
    have hlk : assocLookup final a.username = some a :=
      assocLookup_of_mem_keys_nodup (fun x => x.username) final hknd hinv a haS
    rw [hfe, assocLookup_foldInsert] at hlk
    unfold lastEventFor
    cases hgl : (evts.filter (fun e => e.username = a.username)).getLast? with
    | none => rw [hgl] at hlk; exact absurd hlk (by simp [assocLookup])
    | some b => rw [hgl] at hlk; simpa using hlk

/-- Witness for C1 at the spec's example fixture: `bob` sits in both teams
and the resolved map assigns him to `team-b`, the team processed last. -/
theorem buildTeamAssignments_unique_last_wins_witness :
    (((fixtureAsgs.flatMap Prod.snd).map (fun a => a.username)).Nodup)
    ∧ ∀ a ∈ fixtureAsgs.flatMap Prod.snd, lastEventFor fixtureEvts a.username = some a :=
  buildTeamAssignments_unique_last_wins fixtureCfg fixtureEnv fixtureAsgs fixtureEvts
    (by decide) (by decide)

/-- Claim C10: in every summary returned by `GenerateSummary`, the
unique-user count equals the sum of the per-cost-center counts: the
per-cost-center assignment lists partition the assigned users, so no user
is counted under two cost centers. -/
theorem generateSummary_unique_users_eq_sum (cfg : TeamsConfig) (env : FetchEnv)
    (s : Summary) (h : generateSummary cfg env = some s) :
    s.uniqueUsers = (s.costCenters.map Prod.snd).sum := by
  unfold generateSummary at h
  cases hb : buildTeamAssignments cfg env with
  | none => rw [hb] at h; exact absurd h (by simp)
  | some asgs =>
    rw [hb] at h
    obtain ⟨final, hf, hasgs⟩ := buildTeamAssignments_some_final cfg env asgs hb
    have hnd : ((asgs.flatMap Prod.snd).map (fun a => a.username)).Nodup := by
      rw [hasgs]
      exact groupBy_usernames_nodup _ (build_S_usernames_nodup cfg env final hf)
    have hs : s.uniqueUsers =
        (((asgs.flatMap Prod.snd).map (fun a => a.username)).dedup).length := by
      injection h with h'; rw [← h']
    have hcc : s.costCenters = asgs.map (fun p => (p.1, p.2.length)) := by
      injection h with h'; rw [← h']
    rw [hs, hcc, hnd.dedup, List.length_map, List.map_map]
    rw [length_flatMap']
    rfl

/-- Witness for C10 at the example fixture: 3 unique users = 1 + 2. -/
theorem generateSummary_unique_users_eq_sum_witness :
    (⟨"auto", "organization", ["org1"], 2, 2, 3, [("[org team] org1/team-a", 1),
      ("[org team] org1/team-b", 2)]⟩ : Summary).uniqueUsers =
    (((⟨"auto", "organization", ["org1"], 2, 2, 3, [("[org team] org1/team-a", 1),
      ("[org team] org1/team-b", 2)]⟩ : Summary).costCenters.map Prod.snd).sum) :=
  generateSummary_unique_users_eq_sum fixtureCfg fixtureEnv _ (by decide)

/-- Claim C8: for every list of requested names, `EnsureCostCentersExist`
with auto-creation disabled returns the identity map, a `nil` newly-created
set, and performs no remote calls (the Go function also returns a `nil`
error on this path, which the result type needs no error slot to express). -/
theorem ensureCostCentersExist_auto_create_disabled (cfg : TeamsConfig)
    (env : ProvisionEnv) (ccNames : List String) (h : cfg.autoCreate = false) :
    ensureCostCentersExist cfg env ccNames =
      ⟨ccNames.map (fun n => (n, n)), none, []⟩ := by
  unfold ensureCostCentersExist
  rw [h]
  simp

/-- Witness for C8 at a two-name input. -/
theorem ensureCostCentersExist_auto_create_disabled_witness :
    ensureCostCentersExist ⟨"organization", "auto", "", [], [], false, false⟩
      ⟨some [("cc-a", "id-1")], [], fun _ => .failure, none⟩ ["cc-a", "cc-b"] =
      ⟨[("cc-a", "cc-a"), ("cc-b", "cc-b")], none, []⟩ :=
  ensureCostCentersExist_auto_create_disabled _ _ _ rfl

/-- Claim C2 concerns `EnsureCostCentersExist` resolving a name through a
409 conflict whose body yields the existing identifier: the claim says that
identifier is not marked newly created.  The code disagrees: the conflict
path of `CreateCostCenter` returns the extracted identifier as an ordinary
success, and `EnsureCostCentersExist` marks every successfully returned
identifier of a preload miss as newly created.  At the concrete input below
the requested name "A" resolves via `conflictExtract` to the pre-existing
identifier, which ends up in the newly-created set. -/
theorem ensureCostCentersExist_marks_conflict_extracted_id :
    (ensureCostCentersExist ⟨"organization", "auto", "", [], [], true, true⟩
      ⟨some [], [], fun _ => .conflictExtract "aaaaaaaa-0000-0000-0000-000000000001",
        some []⟩ ["A"]).newlyCreated =
      some ["aaaaaaaa-0000-0000-0000-000000000001"] := by
  decide

/-- Claim C7: `Cache.Get` returns `(entry, true)` iff an entry for the key
exists and `now - cachedAt ≤ ttlHours` hours; otherwise it returns the zero
entry and `false`; a `Get` after `Set` within the TTL window returns the
stored entry, a `Get` after the window elapses returns `found = false`; and
`Get` never mutates the entry table. -/
theorem cacheGet_ttl_spec (st : CacheState) (key : String) (nowNs : Int) :
    ((cacheGet st key nowNs).1.2 = true ↔
      ∃ e, assocLookup st.entries key = some e ∧
        nowNs - e.cachedAt ≤ e.ttlHours * 3600 * secondNs)
    ∧ (cacheGet st key nowNs).2 = st
    ∧ ((cacheGet st key nowNs).1.2 = false → (cacheGet st key nowNs).1.1 = zeroEntry)
    ∧ (∀ id name t0, nowNs - t0 ≤ st.ttlHours * 3600 * secondNs →
        (cacheGet (cacheSet st key id name t0) key nowNs).1 =
          (⟨id, name, t0, st.ttlHours⟩, true))
    ∧ (∀ id name t0, st.ttlHours * 3600 * secondNs < nowNs - t0 →
        (cacheGet (cacheSet st key id name t0) key nowNs).1 = (zeroEntry, false)) := by
  refine ⟨?_, ?_, ?_, ?_, ?_⟩
  · cases hl : assocLookup st.entries key with
    | none => simp [cacheGet, hl]
    | some e =>
      by_cases hexp : nowNs - e.cachedAt > e.ttlHours * 3600 * secondNs
      · simp [cacheGet, hl, Entry.isExpired, hexp]
        omega
      · simp [cacheGet, hl, Entry.isExpired, hexp]
        omega
  · cases hl : assocLookup st.entries key with
    | none => simp [cacheGet, hl]
    | some e => cases he : e.isExpired nowNs <;> simp [cacheGet, hl, he]
  · cases hl : assocLookup st.entries key with
    | none => simp [cacheGet, hl]
    | some e => cases he : e.isExpired nowNs <;> simp [cacheGet, hl, he]
  · intro id name t0 hle
    have hne : ¬ (nowNs - t0 > st.ttlHours * 3600 * secondNs) := by omega
    simp [cacheGet, cacheSet, assocLookup_assocSet, Entry.isExpired, hne]
  · intro id name t0 hgt
    simp [cacheGet, cacheSet, assocLookup_assocSet, Entry.isExpired, hgt]

/-- Witness for C7: a `Get` at exactly the TTL boundary still hits, one
nanosecond later it misses. -/
theorem cacheGet_ttl_spec_witness :
    (cacheGet (cacheSet ⟨24, []⟩ "my-cc" "id-X" "Name-X" 0) "my-cc"
      (24 * 3600 * secondNs)).1 = (⟨"id-X", "Name-X", 0, 24⟩, true)
    ∧ (cacheGet (cacheSet ⟨24, []⟩ "my-cc" "id-X" "Name-X" 0) "my-cc"
      (24 * 3600 * secondNs + 1)).1 = (zeroEntry, false) :=
  ⟨(cacheGet_ttl_spec ⟨24, []⟩ "my-cc" (24 * 3600 * secondNs)).2.2.2.1
      "id-X" "Name-X" 0 (by decide),
   (cacheGet_ttl_spec ⟨24, []⟩ "my-cc" (24 * 3600 * secondNs + 1)).2.2.2.2
      "id-X" "Name-X" 0 (by decide)⟩

/-- Claim C4: `SyncTeamAssignments` in plan mode performs no mutating
remote operation — no cost-center creation, member addition, member removal
or budget creation appears in the call trace — regardless of any errors
encountered while simulating, and it returns only the `nil` result map (or
the build error), reporting counts only. -/
theorem syncTeamAssignments_plan_no_mutation (cfg : TeamsConfig) (cbf : Bool)
    (products : List (String × ProductBudget)) (fenv : FetchEnv) (penv : ProvisionEnv)
    (cenv : ClientEnv) (icc : Bool) :
    ((syncTeamAssignments cfg cbf products fenv penv cenv "plan" icc).2.filter
      RemoteCall.isMutating = [])
    ∧ ((syncTeamAssignments cfg cbf products fenv penv cenv "plan" icc).1 =
        SyncOutcome.failed ∨
       (syncTeamAssignments cfg cbf products fenv penv cenv "plan" icc).1 =
        SyncOutcome.nilResult) := by
  unfold syncTeamAssignments
  cases hb : buildTeamAssignments cfg fenv with
  | none => simp
  | some assignments =>
    by_cases he : assignments.isEmpty <;> simp [he]

theorem doJSONAux_skip_429 (nowNs : Int) (resp : Nat → HTTPOutcome) :
    ∀ (k fuel attempt idx : Nat),
    (∀ j, j < k → ∃ hdr body, resp (idx + j) = HTTPOutcome.response 429 hdr body) →
    (doJSONAux nowNs resp (fuel + k) attempt idx).1 =
      (doJSONAux nowNs resp fuel attempt (idx + k)).1 := by
  intro k
  induction k with
  | zero => intro fuel attempt idx _; rfl
  | succ k ih =>
    intro fuel attempt idx h
    obtain ⟨hdr, body, h0⟩ := h 0 (Nat.succ_pos k)
    rw [Nat.add_zero] at h0
    have hfa : fuel + (k + 1) = (fuel + k) + 1 := rfl
    have hstep : doJSONAux nowNs resp ((fuel + k) + 1) attempt idx =
        withWait (rateLimitWaitNs nowNs hdr)
          (doJSONAux nowNs resp (fuel + k) attempt (idx + 1)) := by
      simp [doJSONAux, h0]
    rw [hfa, hstep]
    show (doJSONAux nowNs resp (fuel + k) attempt (idx + 1)).1 = _
    rw [ih fuel attempt (idx + 1) (fun j hj => by
      have := h (j + 1) (by omega)
      rwa [show idx + (j + 1) = idx + 1 + j by omega] at this)]
    rw [show idx + 1 + k = idx + (k + 1) by omega]

/-- Claim C5: a 429 response causes the call layer to sleep the rate-limit
wait — `reset + 1s` safety margin when the header is present and parseable
(and still in the future), a fixed 60s fallback otherwise — and then retry
without incrementing the attempt counter; consequently any run of
consecutive 429 responses never consumes the retry budget and the loop
continues until a non-429 response is received. -/
theorem doJSON_rate_limit_no_budget (nowNs : Int) (resp : Nat → HTTPOutcome) :
    (∀ fuel attempt idx hdr body, resp idx = HTTPOutcome.response 429 hdr body →
      doJSONAux nowNs resp (fuel + 1) attempt idx =
        withWait (rateLimitWaitNs nowNs hdr)
          (doJSONAux nowNs resp fuel attempt (idx + 1)))
    ∧ rateLimitWaitNs nowNs none = 60 * secondNs
    ∧ (∀ r : Int, nowNs < (r + 1) * secondNs →
        rateLimitWaitNs nowNs (some r) = (r + 1) * secondNs - nowNs)
    ∧ (∀ fuel attempt idx k,
        (∀ j, j < k → ∃ hdr body, resp (idx + j) = HTTPOutcome.response 429 hdr body) →
        (doJSONAux nowNs resp (fuel + k) attempt idx).1 =
          (doJSONAux nowNs resp fuel attempt (idx + k)).1) := by
  refine ⟨?_, rfl, ?_, fun fuel attempt idx k h => doJSONAux_skip_429 nowNs resp k fuel attempt idx h⟩
  · intro fuel attempt idx hdr body h
    simp [doJSONAux, h]
  · intro r h
    simp only [rateLimitWaitNs]
    rw [if_neg (by simp only [secondNs] at h ⊢; omega)]
    ring

/-- Witness for C5: two 429 responses (one with a future reset header
value) are each followed by a retry at the same attempt counter. -/
theorem doJSON_rate_limit_no_budget_witness :
    (doJSONAux 0 rateLimitRespFixture (1 + 1) 0 0 =
      withWait (rateLimitWaitNs 0 none) (doJSONAux 0 rateLimitRespFixture 1 0 1))
    ∧ rateLimitWaitNs 0 (some 2) = (2 + 1) * secondNs - 0
    ∧ (doJSONAux 0 rateLimitRespFixture (1 + 2) 0 0).1 =
      (doJSONAux 0 rateLimitRespFixture 1 0 2).1 :=
  ⟨(doJSON_rate_limit_no_budget 0 rateLimitRespFixture).1 1 0 0 none "slow" (by decide),
   (doJSON_rate_limit_no_budget 0 rateLimitRespFixture).2.2.1 2 (by decide),
   (doJSON_rate_limit_no_budget 0 rateLimitRespFixture).2.2.2 1 0 0 2 (by
     intro j hj
     refine ⟨none, "slow", ?_⟩
     interval_cases j <;> decide)⟩

/-- Claim C6: responses with status in {500, 502, 503, 504} and transient
network errors are retried under a shared budget of at most 3 attempts with
exponential backoff `base(1s) * 2^attempt`, while any other non-2xx status
is returned immediately as a terminal `APIError` carrying at most 4096
bytes of the response body. -/
theorem doJSON_retry_policy (nowNs : Int) (resp : Nat → HTTPOutcome) :
    (∀ fuel attempt idx status hdr body,
      resp idx = HTTPOutcome.response status hdr body →
      (status = 500 ∨ status = 502 ∨ status = 503 ∨ status = 504) →
      attempt < maxRetries - 1 →
      doJSONAux nowNs resp (fuel + 1) attempt idx =
        withWait (backoffNs attempt) (doJSONAux nowNs resp fuel (attempt + 1) (idx + 1)))
    ∧ (∀ a : Nat, backoffNs a = secondNs * 2 ^ a)
    ∧ (∀ fuel attempt idx status hdr body,
        resp idx = HTTPOutcome.response status hdr body →
        ¬ (200 ≤ status ∧ status < 300) → retryableStatus status = false →
        doJSONAux nowNs resp (fuel + 1) attempt idx =
          (DoResult.apiError status (take4096 body), []))
    ∧ (∀ body, (take4096 body).length ≤ 4096)
    ∧ (∀ fuel idx hdr0 hdr1 hdr2 b0 b1 b2,
        resp idx = HTTPOutcome.response 500 hdr0 b0 →
        resp (idx + 1) = HTTPOutcome.response 500 hdr1 b1 →
        resp (idx + 2) = HTTPOutcome.response 500 hdr2 b2 →
        doJSONAux nowNs resp (fuel + 3) 0 idx =
          (DoResult.apiError 500 (take4096 b2), [backoffNs 0, backoffNs 1]))
    ∧ (∀ fuel attempt idx, resp idx = HTTPOutcome.netErr true →
        attempt < maxRetries - 1 →
        doJSONAux nowNs resp (fuel + 1) attempt idx =
          withWait (backoffNs attempt) (doJSONAux nowNs resp fuel (attempt + 1) (idx + 1)))
    ∧ (∀ fuel attempt idx t, resp idx = HTTPOutcome.netErr t →
        (t = false ∨ ¬ attempt < maxRetries - 1) →
        doJSONAux nowNs resp (fuel + 1) attempt idx = (DoResult.netFailure, [])) := by
  refine ⟨?_, fun a => rfl, ?_, ?_, ?_, ?_, ?_⟩
  · intro fuel attempt idx status hdr body h hs ha
    rcases hs with rfl | rfl | rfl | rfl <;>
      simp [doJSONAux, h, retryableStatus, maxRetries] <;> simp [maxRetries] at ha <;>
      simp [ha]
  · intro fuel attempt idx status hdr body h h2xx hr
    have h429 : ¬ status = 429 := by
      intro he; subst he; simp [retryableStatus] at hr
    simp [doJSONAux, h, h2xx, h429, hr]
  · intro body
    have hlen : (take4096 body).length = (body.data.take 4096).length := rfl
    rw [hlen, List.length_take]
    omega
  · intro fuel idx hdr0 hdr1 hdr2 b0 b1 b2 h0 h1 h2
    have s0 : doJSONAux nowNs resp ((fuel + 2) + 1) 0 idx =
        withWait (backoffNs 0) (doJSONAux nowNs resp (fuel + 2) 1 (idx + 1)) := by
      simp [doJSONAux, h0, retryableStatus, maxRetries]
    have s1 : doJSONAux nowNs resp ((fuel + 1) + 1) 1 (idx + 1) =
        withWait (backoffNs 1) (doJSONAux nowNs resp (fuel + 1) 2 (idx + 2)) := by
      simp [doJSONAux, h1, retryableStatus, maxRetries]
    have s2 : doJSONAux nowNs resp (fuel + 1) 2 (idx + 2) =
        (DoResult.apiError 500 (take4096 b2), []) := by
      simp [doJSONAux, h2, retryableStatus, maxRetries]
    show doJSONAux nowNs resp ((fuel + 2) + 1) 0 idx = _
    rw [s0]
    show withWait (backoffNs 0) (doJSONAux nowNs resp ((fuel + 1) + 1) 1 (idx + 1)) = _
    rw [s1, s2]
    rfl
  · intro fuel attempt idx h ha
    simp [doJSONAux, h, ha]
  · intro fuel attempt idx t h ht
    rcases ht with rfl | ht
    · simp [doJSONAux, h]
    · simp [doJSONAux, h, ht]

/-- Witness for C6: a 500 is retried with a 1s backoff, three consecutive
500s exhaust the 3-attempt budget after backoffs 1s and 2s, and a 403 is
terminal immediately with its body. -/
theorem doJSON_retry_policy_witness :
    (doJSONAux 0 serverErrRespFixture (1 + 1) 0 0 =
      withWait (backoffNs 0) (doJSONAux 0 serverErrRespFixture 1 1 1))
    ∧ (doJSONAux 0 serverErrRespFixture (0 + 3) 0 0 =
      (DoResult.apiError 500 (take4096 "boom"), [backoffNs 0, backoffNs 1]))
    ∧ (doJSONAux 0 forbiddenRespFixture (4 + 1) 2 7 =
      (DoResult.apiError 403 (take4096 "nope"), [])) :=
  ⟨(doJSON_retry_policy 0 serverErrRespFixture).1 1 0 0 500 none "boom" (by decide)
      (by decide) (by decide),
   (doJSON_retry_policy 0 serverErrRespFixture).2.2.2.2.1 0 0 none none none
      "boom" "boom" "boom" (by decide) (by decide) (by decide),
   (doJSON_retry_policy 0 forbiddenRespFixture).2.2.1 4 2 7 403 none "nope"
      (by decide) (by decide) (by decide)⟩

theorem mentionsCC_unique (c1 c2 : String) (rc : RemoteCall)
    (h1 : rc.mentionsCC c1 = true) (h2 : rc.mentionsCC c2 = true) : c1 = c2 := by
  cases rc <;> simp_all [RemoteCall.mentionsCC]

theorem isRemovalFor_mentions (cc : String) (rc : RemoteCall)
    (h : rc.isRemovalFor cc = true) : rc.mentionsCC cc = true := by
  cases rc <;> simp_all [RemoteCall.isRemovalFor, RemoteCall.mentionsCC]

theorem removalForCC_calls_mention (cfg : TeamsConfig) (env : ClientEnv) (c0 : String)
    (u0 : List String) :
    ∀ rc ∈ (removalForCC cfg env c0 u0).2, rc.mentionsCC c0 = true := by
  intro rc hrc
  unfold removalForCC at hrc
  cases hm : env.ccMembers c0 with
  | none =>
    simp only [hm, List.mem_singleton] at hrc
    subst hrc
    simp [RemoteCall.mentionsCC]
  | some current =>
    simp only [hm] at hrc
    by_cases hst : (current.filter (fun m => ¬ m ∈ u0)).isEmpty = true
    · rw [if_pos hst] at hrc
      simp only [List.mem_singleton] at hrc
      subst hrc
      simp [RemoteCall.mentionsCC]
    · rw [if_neg hst] at hrc
      by_cases hru : cfg.removeUsers = true
      · rw [if_pos hru] at hrc
        unfold removeUsersFromCostCenter at hrc
        by_cases hse :
            (sortStrings (current.filter (fun m => ¬ m ∈ u0))).isEmpty = true
        · rw [if_pos hse] at hrc
          simp only [List.mem_cons, List.not_mem_nil, or_false] at hrc
          subst hrc
          simp [RemoteCall.mentionsCC]
        · rw [if_neg hse] at hrc
          simp only [List.mem_cons, List.mem_singleton, List.not_mem_nil,
            or_false] at hrc
          rcases hrc with rfl | rfl <;> simp [RemoteCall.mentionsCC]
      · rw [if_neg hru] at hrc
        simp only [List.mem_singleton] at hrc
        subst hrc
        simp [RemoteCall.mentionsCC]

theorem removalForCC_results_key (cfg : TeamsConfig) (env : ClientEnv) (c0 : String)
    (u0 : List String) :
    ∀ q ∈ (removalForCC cfg env c0 u0).1, q.1 = c0 := by
  intro q hq
  unfold removalForCC at hq
  cases hm : env.ccMembers c0 with
  | none => simp only [hm, List.not_mem_nil] at hq
  | some current =>
    simp only [hm] at hq
    by_cases hst : (current.filter (fun m => ¬ m ∈ u0)).isEmpty = true
    · rw [if_pos hst] at hq
      simp at hq
    · rw [if_neg hst] at hq
      by_cases hru : cfg.removeUsers = true
      · rw [if_pos hru] at hq
        simp only [List.mem_singleton] at hq
        rw [hq]
      · rw [if_neg hru] at hq
        simp at hq

theorem removalLoop_calls_mention (cfg : TeamsConfig) (env : ClientEnv) :
    ∀ (l : List (String × List String)) (rc : RemoteCall),
    rc ∈ (removalLoop cfg env l).2 →
    ∃ c, c ∈ l.map Prod.fst ∧ rc.mentionsCC c = true := by
  intro l
  induction l with
  | nil => intro rc hrc; simp [removalLoop] at hrc
  | cons p rest ih =>
    intro rc hrc
    obtain ⟨c0, u0⟩ := p
    simp only [removalLoop] at hrc
    rcases List.mem_append.mp hrc with h | h
    · exact ⟨c0, by simp, removalForCC_calls_mention cfg env c0 u0 rc h⟩
    · obtain ⟨c, hc, hm⟩ := ih rc h
      exact ⟨c, by simp [hc], hm⟩

theorem removalLoop_results_keys (cfg : TeamsConfig) (env : ClientEnv) :
    ∀ (l : List (String × List String)) (cc : String),
    cc ∈ (removalLoop cfg env l).1.map Prod.fst → cc ∈ l.map Prod.fst := by
  intro l
  induction l with
  | nil => intro cc h; simp [removalLoop] at h
  | cons p rest ih =>
    intro cc h
    obtain ⟨c0, u0⟩ := p
    simp only [removalLoop, List.map_append] at h
    rcases List.mem_append.mp h with h | h
    · rcases List.mem_map.mp h with ⟨q, hq, hqc⟩
      have := removalForCC_results_key cfg env c0 u0 q hq
      simp [← hqc, this]
    · simp [ih cc h]

theorem removalLoop_disabled (cfg : TeamsConfig) (env : ClientEnv)
    (hru : cfg.removeUsers = false) :
    ∀ l : List (String × List String),
    (removalLoop cfg env l).1 = [] ∧
    ∀ cc us, RemoteCall.removeUsersCall cc us ∉ (removalLoop cfg env l).2 := by
  intro l
  induction l with
  | nil => simp [removalLoop]
  | cons p rest ih =>
    obtain ⟨c0, u0⟩ := p
    have hone : (removalForCC cfg env c0 u0).1 = [] ∧
        ∀ cc us, RemoteCall.removeUsersCall cc us ∉ (removalForCC cfg env c0 u0).2 := by
      unfold removalForCC
      cases hm : env.ccMembers c0 with
      | none => simp [hm]
      | some current =>
        simp only [hm]
        by_cases hst : (current.filter (fun m => ¬ m ∈ u0)).isEmpty = true
        · rw [if_pos hst]; simp
        · rw [if_neg hst, hru]; simp
    constructor
    · simp only [removalLoop, hone.1, List.nil_append]
      exact ih.1
    · intro cc us
      simp only [removalLoop]
      intro hmem
      rcases List.mem_append.mp hmem with h | h
      · exact hone.2 cc us h
      · exact ih.2 cc us h

theorem removalLoop_filter_eq (cfg : TeamsConfig) (env : ClientEnv)
    (hru : cfg.removeUsers = true) :
    ∀ l : List (String × List String), (l.map Prod.fst).Nodup →
    ∀ cc users current, (cc, users) ∈ l → env.ccMembers cc = some current →
    (removalLoop cfg env l).2.filter (RemoteCall.isRemovalFor cc) =
      (if (current.filter (fun m => ¬ m ∈ users)).isEmpty then []
       else [RemoteCall.removeUsersCall cc
         (sortStrings (current.filter (fun m => ¬ m ∈ users)))]) := by
  intro l
  induction l with
  | nil => intro _ cc users current h; simp at h
  | cons p rest ih =>
    intro hnd cc users current hmem hm
    obtain ⟨c0, u0⟩ := p
    simp only [List.map_cons, List.nodup_cons] at hnd
    have hfilrest : ∀ (hne : ¬ cc ∈ rest.map Prod.fst),
        (removalLoop cfg env rest).2.filter (RemoteCall.isRemovalFor cc) = [] := by
      intro hne
      rw [List.filter_eq_nil_iff]
      intro rc hrc hfor
      obtain ⟨c, hc, hmc⟩ := removalLoop_calls_mention cfg env rest rc hrc
      have : cc = c := mentionsCC_unique cc c rc (isRemovalFor_mentions cc rc hfor) hmc
      exact hne (this ▸ hc)
    simp only [removalLoop, List.filter_append]
    rcases List.mem_cons.mp hmem with hhead | hrest
    · injection hhead with h1 h2
      subst h1
      subst h2
      rw [hfilrest hnd.1, List.append_nil]
      unfold removalForCC
      simp only [hm]
      by_cases hst : (current.filter (fun m => ¬ m ∈ users)).isEmpty = true
      · rw [if_pos hst, if_pos hst]
        simp [RemoteCall.isRemovalFor]
      · have hsne :
            ¬ (sortStrings (current.filter (fun m => ¬ m ∈ users))).isEmpty = true := by
          intro hcontra
          rw [List.isEmpty_iff] at hst hcontra
          rcases List.exists_mem_of_ne_nil _ hst with ⟨x, hx⟩
          have : x ∈ sortStrings (current.filter (fun m => ¬ m ∈ users)) :=
            (mem_sortStrings _ _).mpr hx
          rw [hcontra] at this
          simp at this
        rw [if_neg hst, if_neg hst, if_pos hru]
        unfold removeUsersFromCostCenter
        rw [if_neg hsne]
        simp [RemoteCall.isRemovalFor]
    · have hccrest : cc ∈ rest.map Prod.fst :=
        List.mem_map.mpr ⟨(cc, users), hrest, rfl⟩
      have hne : ¬ c0 = cc := fun h => hnd.1 (h ▸ hccrest)
      have hfilone : (removalForCC cfg env c0 u0).2.filter
          (RemoteCall.isRemovalFor cc) = [] := by
        rw [List.filter_eq_nil_iff]
        intro rc hrc hfor
        have hmc0 := removalForCC_calls_mention cfg env c0 u0 rc hrc
        have : cc = c0 :=
          mentionsCC_unique cc c0 rc (isRemovalFor_mentions cc rc hfor) hmc0
        exact hne this.symm
      rw [hfilone, List.nil_append]
      exact ih hnd.2 cc users current hrest hm

/-- Claim C3: in the removal pass, for every cost center that was not newly
created this run, when full sync is enabled the set of subjects removed is
exactly the current remote membership minus the desired membership, removed
in one call per cost center; when full sync is disabled the stale set is
only reported and no removal call is made; newly-created cost centers are
skipped entirely (no call references them and they get no result entry). -/
theorem handleUserRemoval_stale_spec (cfg : TeamsConfig) (env : ClientEnv)
    (expected : List (String × List String)) (newlyCreated : List String)
    (hnd : (expected.map Prod.fst).Nodup) :
    (cfg.removeUsers = false →
      (handleUserRemoval cfg env expected newlyCreated).1 = []
      ∧ ∀ cc us, RemoteCall.removeUsersCall cc us ∉
          (handleUserRemoval cfg env expected newlyCreated).2)
    ∧ (∀ cc, cc ∈ newlyCreated →
        (∀ rc ∈ (handleUserRemoval cfg env expected newlyCreated).2,
          rc.mentionsCC cc = false)
        ∧ ¬ cc ∈ (handleUserRemoval cfg env expected newlyCreated).1.map Prod.fst)
    ∧ (cfg.removeUsers = true → ∀ cc users current, (cc, users) ∈ expected →
        ¬ cc ∈ newlyCreated → env.ccMembers cc = some current →
        (handleUserRemoval cfg env expected newlyCreated).2.filter
          (RemoteCall.isRemovalFor cc) =
          (if (current.filter (fun m => ¬ m ∈ users)).isEmpty then []
           else [RemoteCall.removeUsersCall cc
             (sortStrings (current.filter (fun m => ¬ m ∈ users)))]))
    ∧ (∀ (current users : List String) (u : String),
        u ∈ sortStrings (current.filter (fun m => ¬ m ∈ users)) ↔
          (u ∈ current ∧ ¬ u ∈ users)) := by
  refine ⟨fun hru => removalLoop_disabled cfg env hru _, ?_, ?_, ?_⟩
  · intro cc hcc
    have hnotkey : ¬ cc ∈ (expected.filter
        (fun p => ¬ p.1 ∈ newlyCreated)).map Prod.fst := by
      intro hk
      rcases List.mem_map.mp hk with ⟨q, hq, hqc⟩
      rw [List.mem_filter] at hq
      have : ¬ q.1 ∈ newlyCreated := by simpa using hq.2
      exact this (hqc ▸ hcc)
    constructor
    · intro rc hrc
      cases hmc : rc.mentionsCC cc with
      | false => rfl
      | true =>
        obtain ⟨c, hc, hm⟩ := removalLoop_calls_mention cfg env _ rc hrc
        exact absurd ((mentionsCC_unique cc c rc hmc hm) ▸ hc) hnotkey
    · intro hk
      exact hnotkey (removalLoop_results_keys cfg env _ cc hk)
  · intro hru cc users current hmem hnc hm
    have hndf : ((expected.filter (fun p => ¬ p.1 ∈ newlyCreated)).map
        Prod.fst).Nodup :=
      hnd.sublist (List.Sublist.map _ (List.filter_sublist expected))
    have hmemf : (cc, users) ∈ expected.filter (fun p => ¬ p.1 ∈ newlyCreated) :=
      List.mem_filter.mpr ⟨hmem, by simpa using hnc⟩
    exact removalLoop_filter_eq cfg env hru _ hndf cc users current hmemf hm
  · intro current users u
    rw [mem_sortStrings, List.mem_filter]
    simp

/-- Witness for C3: desired `{alice,bob}`, remote `{alice,bob,dave}`, full
sync enabled — exactly one removal call deleting exactly `dave`. -/
theorem handleUserRemoval_stale_spec_witness :
    (handleUserRemoval ⟨"organization", "auto", "", [], [], true, true⟩
      applyEnvFixture [("X", ["alice", "bob"])] []).2.filter
      (RemoteCall.isRemovalFor "X") = [RemoteCall.removeUsersCall "X" ["dave"]] := by
  have h := (handleUserRemoval_stale_spec ⟨"organization", "auto", "", [], [], true, true⟩
    applyEnvFixture [("X", ["alice", "bob"])] [] (by decide)).2.2.1 rfl
    "X" ["alice", "bob"] ["alice", "bob", "dave"] (by decide) (by decide) (by decide)
  simpa using h

theorem checkMembership_result (env : ClientEnv) (u : String) :
    (checkUserCostCenterMembership env u).1.1 =
      (match env.membership u with
       | .callFailed => none
       | .ok [] => none
       | .ok (r :: _) => some r) := by
  unfold checkUserCostCenterMembership
  cases h : env.membership u with
  | callFailed => rfl
  | ok refs => cases refs <;> rfl

theorem addPartition_toAdd_mem (env : ClientEnv) (memberSet : List String) :
    ∀ (users : List String) (u : String), u ∈ users → ¬ u ∈ memberSet →
    env.membership u = MembershipOutcome.callFailed →
    u ∈ (addPartition env false memberSet users).2.1 := by
  intro users
  induction users with
  | nil => intro u hu; simp at hu
  | cons v rest ih =>
    intro u hu hmem hfail
    rcases List.mem_cons.mp hu with rfl | hu'
    · simp only [addPartition, if_neg (by simpa using hmem)]
      rw [if_pos trivial]
      have : (checkUserCostCenterMembership env u).1.1 = none := by
        rw [checkMembership_result, hfail]
      rw [this]
      exact List.mem_cons_self _ _
    · have hrec := ih u hu' hmem hfail
      simp only [addPartition]
      by_cases hv : v ∈ memberSet
      · rw [if_pos hv]
        exact hrec
      · rw [if_neg hv, if_pos trivial]
        cases hc : (checkUserCostCenterMembership env v).1.1 with
        | none => exact List.mem_cons_of_mem _ hrec
        | some r => exact hrec

theorem chunk50_flatten (xs : List String) : (chunk50 xs).flatten = xs := by
  induction xs using chunk50.induct with
  | case1 => simp [chunk50]
  | case2 xs h hlt ih =>
    rw [chunk50]
    simp only [dif_neg h, List.flatten_cons]
    rw [ih]
    exact List.take_append_drop 50 xs

theorem mem_chunk50 (xs : List String) (u : String) (h : u ∈ xs) :
    ∃ b, b ∈ chunk50 xs ∧ u ∈ b := by
  rw [← chunk50_flatten xs] at h
  rcases List.mem_flatten.mp h with ⟨b, hb, hub⟩
  exact ⟨b, hb, hub⟩

theorem runBatches_trace (env : ClientEnv) (ccID : String) :
    ∀ (bs : List (List String)) (b : List String), b ∈ bs →
    RemoteCall.addUsers ccID b ∈ (runBatches env ccID bs).2 := by
  intro bs
  induction bs with
  | nil => intro b hb; simp at hb
  | cons b0 rest ih =>
    intro b hb
    rcases List.mem_cons.mp hb with rfl | hb'
    · exact List.mem_cons_self _ _
    · exact List.mem_cons_of_mem _ (ih b hb')

/-- Claim C9: `CheckUserCostCenterMembership` never returns a non-nil
error — every lookup failure becomes the `(nil, nil)` result, i.e. "user is
in no cost center" — and consequently, in `AddUsersToCostCenter` with the
check-current option enabled (`ignoreCurrentCC = false`), a user whose
membership lookup fails and who is not already in the target is added (it
appears in one of the POST batches) rather than skipped. -/
theorem checkMembership_never_errors (envAny : ClientEnv) (uAny : String) :
    ((checkUserCostCenterMembership envAny uAny).1.2 = none)
    ∧ (∀ (env : ClientEnv) (cc : String) (users : List String) (u : String)
        (current : List String),
        env.membership u = MembershipOutcome.callFailed → u ∈ users →
        env.ccMembers cc = some current → ¬ u ∈ current →
        ∃ batch, RemoteCall.addUsers cc batch ∈
          (addUsersToCostCenter env cc users false).2 ∧ u ∈ batch) := by
  constructor
  · unfold checkUserCostCenterMembership
    cases h : envAny.membership uAny with
    | callFailed => rfl
    | ok refs => cases refs <;> rfl
  · intro env cc users u current hfail hu hm hnotmem
    have husers : ¬ users.isEmpty = true := by
      cases users with
      | nil => simp at hu
      | cons a l => simp
    unfold addUsersToCostCenter
    rw [if_neg husers]
    simp only [hm]
    have hto : u ∈ (addPartition env false current users).2.1 :=
      addPartition_toAdd_mem env current users u hu hnotmem hfail
    have htne : ¬ (addPartition env false current users).2.1.isEmpty = true := by
      cases hl : (addPartition env false current users).2.1 with
      | nil => rw [hl] at hto; simp at hto
      | cons a l => simp
    rw [if_neg htne]
    obtain ⟨b, hb, hub⟩ := mem_chunk50 _ u hto
    refine ⟨b, ?_, hub⟩
    have := runBatches_trace env cc (chunk50 (addPartition env false current users).2.1) b hb
    exact List.mem_cons_of_mem _ (List.mem_append.mpr (Or.inr this))

/-- Witness for C9: user `erin` is not in the target, her membership lookup
fails, and she is added in the POST batch anyway. -/
theorem checkMembership_never_errors_witness :
    ((checkUserCostCenterMembership applyEnvFixture "erin").1.2 = none)
    ∧ ∃ batch, RemoteCall.addUsers "X" batch ∈
        (addUsersToCostCenter applyEnvFixture "X" ["alice", "erin"] false).2 ∧
        "erin" ∈ batch :=
  ⟨(checkMembership_never_errors applyEnvFixture "erin").1,
   (checkMembership_never_errors applyEnvFixture "erin").2 applyEnvFixture "X"
     ["alice", "erin"] "erin" ["alice", "bob", "dave"] (by decide) (by decide)
     (by decide) (by decide)⟩

end CostCenter
